import Mathlib

/-!
Verification development for the dictforge assembly core.

Shallow embedding of the Python modules `dictforge/kaikki.py`,
`dictforge/builder.py`, `dictforge/source_base.py` and
`dictforge/source_freedict.py`.  Pure transformation functions are translated
directly; the stateful cache/download operations are modelled as explicit
state-passing functions over a record of the relevant file-system contents.
Machine-irrelevant aspects (HTTP transport, progress bars, UTF-8 decoding with
errors ignored) are abstracted where noted in comments next to the definition.
-/

namespace Dictforge

/-- Association-list model of a Python `dict`: first binding for a key wins on
lookup (keys are kept unique by `dictInsert`). -/
def dictLookup [DecidableEq κ] : List (κ × α) → κ → Option α
  | [], _ => none
  | (k0, v) :: rest, k => if k0 = k then some v else dictLookup rest k

/-- Python `d[k] = v`: replaces the value of an existing key in place,
otherwise appends the new binding at the end (insertion order semantics). -/
def dictInsert [DecidableEq κ] : List (κ × α) → κ → α → List (κ × α)
  | [], k, v => [(k, v)]
  | (k0, v0) :: rest, k, v =>
      if k0 = k then (k, v) :: rest else (k0, v0) :: dictInsert rest k v

theorem dictLookup_dictInsert_self [DecidableEq κ] (d : List (κ × α)) (k : κ) (v : α) :
    dictLookup (dictInsert d k v) k = some v := by
  induction d with
  | nil => simp [dictInsert, dictLookup]
  | cons p rest ih =>
      obtain ⟨k0, v0⟩ := p
      by_cases h : k0 = k
      · simp [dictInsert, dictLookup, h]
      · simp [dictInsert, dictLookup, h, ih]

theorem dictLookup_dictInsert_ne [DecidableEq κ] (d : List (κ × α)) (k k1 : κ) (v : α)
    (h : k1 ≠ k) : dictLookup (dictInsert d k v) k1 = dictLookup d k1 := by
  induction d with
  | nil => simp [dictInsert, dictLookup, Ne.symm h]
  | cons p rest ih =>
      obtain ⟨k0, v0⟩ := p
      by_cases h0 : k0 = k
      · subst h0
        simp [dictInsert, dictLookup, Ne.symm h]
      · by_cases h1 : k0 = k1
        · subst h1
          simp [dictInsert, dictLookup, h0, Ne.symm h]
        · simp [dictInsert, dictLookup, h0, h1, ih]

theorem mem_dictInsert [DecidableEq κ] (d : List (κ × α)) (k : κ) (v : α) (p : κ × α)
    (h : p ∈ dictInsert d k v) : p = (k, v) ∨ p ∈ d := by
  induction d with
  | nil => simpa [dictInsert] using h
  | cons q rest ih =>
      obtain ⟨k0, v0⟩ := q
      by_cases h0 : k0 = k
      · simp [dictInsert, h0] at h
        rcases h with h | h
        · exact Or.inl (by simp [h])
        · exact Or.inr (by simp [h])
      · simp [dictInsert, h0] at h
        rcases h with h | h
        · exact Or.inr (by simp [h])
        · rcases ih h with h1 | h1
          · exact Or.inl h1
          · exact Or.inr (by simp [h1])

theorem dictLookup_isSome_iff_mem [DecidableEq κ] (d : List (κ × α)) (k : κ) :
    (dictLookup d k).isSome = true ↔ ∃ v, (k, v) ∈ d := by
  induction d with
  | nil => simp [dictLookup]
  | cons p rest ih =>
      obtain ⟨k0, v0⟩ := p
      by_cases h : k0 = k
      · subst h
        simp [dictLookup]
      · simp only [dictLookup, h, if_false, ih, List.mem_cons, Prod.mk.injEq]
        constructor
        · rintro ⟨v, hv⟩
          exact ⟨v, Or.inr hv⟩
        · rintro ⟨v, hv | hv⟩
          · exact absurd hv.1.symm h
          · exact ⟨v, hv⟩

/-- Python `sorted(set(xs))` for a list of strings: deduplicate, then sort
lexicographically (code-point order, as Python does for `str`). -/
def pySortedSet (l : List String) : List String :=
  List.insertionSort (fun a b => a ≤ b) l.dedup

theorem pySortedSet_sorted (l : List String) :
    List.Sorted (fun a b => a ≤ b) (pySortedSet l) :=
  List.sorted_insertionSort _ _

theorem pySortedSet_nodup (l : List String) : (pySortedSet l).Nodup :=
  ((List.perm_insertionSort _ _).nodup_iff).mpr (List.nodup_dedup l)

theorem mem_pySortedSet (l : List String) (a : String) :
    a ∈ pySortedSet l ↔ a ∈ l :=
  ((List.perm_insertionSort _ _).mem_iff).trans (List.mem_dedup)

/-- Python `s.strip()`: drop whitespace from both ends (modelled on the
character list so that it evaluates by kernel reduction). -/
def pyStrip (s : String) : String :=
  ⟨((s.data.dropWhile Char.isWhitespace).reverse.dropWhile Char.isWhitespace).reverse⟩

/-- Python `s.lower()` (sufficient for the cased ranges the pipeline meets;
modelled on the character list so that it evaluates by kernel reduction). -/
def pyLower (s : String) : String :=
  ⟨s.data.map Char.toLower⟩

/-- JSON-like values as decoded from the Kaikki / StarDict JSONL corpora.
Objects are association lists in insertion order. -/
inductive J where
  | null
  | bool (b : Bool)
  | num (n : Int)
  | str (s : String)
  | arr (xs : List J)
  | obj (kvs : List (String × J))

/-- Python `entry.get(key)`: `none` models the absent key (Python `None`). -/
def jGet (kvs : List (String × J)) (key : String) : Option J :=
  dictLookup kvs key

/-- Python truthiness test `x == some_string` where `x` came from `.get`:
comparing `None` or a non-string JSON value with a string is `False`. -/
def jIsStr (v : Option J) (s : String) : Bool :=
  match v with
  | some (.str t) => t = s
  | _ => false

/-- Python `value or []` followed by iteration, for a `.get` result that the
source code then iterates as a list.  Absent keys and falsy values give `[]`;
non-list truthy values would raise `TypeError` in Python and are outside the
modelled domain (also mapped to `[]`). -/
def pyListOr : Option J → List J
  | some (.arr xs) => xs
  | _ => []

/-! ## Transliterator (source_freedict.py, `FreeDictSource.CYRILLIC_TO_LATIN`
and `_transliterate_serbian_cyrillic` / `_apply_transliteration`) -/

/-- FreeDictSource.CYRILLIC_TO_LATIN: fixed Serbian Cyrillic to Gaj Latin
table, lower case then upper case, exactly as listed in the source. -/
def CYRILLIC_TO_LATIN : List (Char × String) :=
  [('а', "a"), ('б', "b"), ('в', "v"), ('г', "g"), ('д', "d"), ('ђ', "đ"),
   ('е', "e"), ('ж', "ž"), ('з', "z"), ('и', "i"), ('ј', "j"), ('к', "k"),
   ('л', "l"), ('љ', "lj"), ('м', "m"), ('н', "n"), ('њ', "nj"), ('о', "o"),
   ('п', "p"), ('р', "r"), ('с', "s"), ('т', "t"), ('ћ', "ć"), ('у', "u"),
   ('ф', "f"), ('х', "h"), ('ц', "c"), ('ч', "č"), ('џ', "dž"), ('ш', "š"),
   ('А', "A"), ('Б', "B"), ('В', "V"), ('Г', "G"), ('Д', "D"), ('Ђ', "Đ"),
   ('Е', "E"), ('Ж', "Ž"), ('З', "Z"), ('И', "I"), ('Ј', "J"), ('К', "K"),
   ('Л', "L"), ('Љ', "Lj"), ('М', "M"), ('Н', "N"), ('Њ', "Nj"), ('О', "O"),
   ('П', "P"), ('Р', "R"), ('С', "S"), ('Т', "T"), ('Ћ', "Ć"), ('У', "U"),
   ('Ф', "F"), ('Х', "H"), ('Ц', "C"), ('Ч', "Č"), ('Џ', "Dž"), ('Ш', "Š")]

/-- Python `self.CYRILLIC_TO_LATIN.get(c, c)` for one character, as the list
of characters it contributes to the output string. -/
def translitChar (c : Char) : List Char :=
  match dictLookup CYRILLIC_TO_LATIN c with
  | some s => s.data
  | none => [c]

/-- FreeDictSource._transliterate_serbian_cyrillic: the characterwise join
over the table (Python builds the same string with a join over a generator). -/
def transliterateSerbianCyrillic (text : String) : String :=
  ⟨(text.data.map translitChar).flatten⟩

/-- Value of a `glosses` key as handled by `_apply_transliteration`: either a
plain string or a list of strings (the two `isinstance` branches). -/
inductive GlossField where
  | strVal (s : String)
  | listVal (xs : List String)
deriving DecidableEq

/-- One sense as touched by `_apply_transliteration`: only the optional
`glosses` key matters (absent key modelled as `none`). -/
structure FDSense where
  glosses : Option GlossField
deriving DecidableEq

/-- Entry shape for `_apply_transliteration`: optional `word` plus the list of
senses from `entry.get("senses", [])`. -/
structure FDEntry where
  word : Option String
  senses : List FDSense
deriving DecidableEq

/-- The `glosses` branch of `_apply_transliteration`: lists map element-wise,
plain strings are transliterated whole. -/
def translitGlossField : GlossField → GlossField
  | .strVal s => .strVal (transliterateSerbianCyrillic s)
  | .listVal xs => .listVal (xs.map transliterateSerbianCyrillic)

/-- FreeDictSource._apply_transliteration: identity unless `lang` is
`"Serbian"`; otherwise transliterates the word and every sense's glosses. -/
def applyTransliteration (entry : FDEntry) (lang : String) : FDEntry :=
  if lang ≠ "Serbian" then entry
  else
    { word := entry.word.map transliterateSerbianCyrillic,
      senses := entry.senses.map (fun s => ⟨s.glosses.map translitGlossField⟩) }

/-- Cyrillic block test (U+0400 to U+04FF), covering every letter the claim
calls a Cyrillic codepoint. -/
def isCyrillicChar (c : Char) : Bool :=
  decide (0x400 ≤ c.toNat ∧ c.toNat ≤ 0x4FF)

/-- String-level test used to state the Serbian-mode invariant. -/
def containsCyrillic (s : String) : Bool :=
  s.data.any isCyrillicChar

/-- Strings carried by a `glosses` value (one for the string shape, the
elements for the list shape). -/
def glossStrings : GlossField → List String
  | .strVal s => [s]
  | .listVal xs => xs

theorem dictLookup_eq_some_mem [DecidableEq κ] (d : List (κ × α)) (k : κ) (v : α)
    (h : dictLookup d k = some v) : (k, v) ∈ d := by
  induction d with
  | nil => simp [dictLookup] at h
  | cons p rest ih =>
      obtain ⟨k0, v0⟩ := p
      by_cases h0 : k0 = k
      · subst h0
        simp [dictLookup] at h
        simp [h]
      · simp [dictLookup, h0] at h
        exact List.mem_cons_of_mem _ (ih h)

/-- Every character of every replacement string in the table is itself outside
the table (the Latin digraph letters are not Cyrillic). -/
theorem cyrillicTable_values_outside :
    ∀ p ∈ CYRILLIC_TO_LATIN, ∀ c ∈ p.2.data,
      dictLookup CYRILLIC_TO_LATIN c = none := by decide

theorem translitChar_no_table_chars (c0 : Char) :
    ∀ c ∈ translitChar c0, dictLookup CYRILLIC_TO_LATIN c = none := by
  intro c hc
  unfold translitChar at hc
  cases h : dictLookup CYRILLIC_TO_LATIN c0 with
  | some s =>
      rw [h] at hc
      exact cyrillicTable_values_outside (c0, s) (dictLookup_eq_some_mem _ _ _ h) c hc
  | none =>
      rw [h] at hc
      simp at hc
      subst hc
      exact h

/-- No character of a transliterated string is a key of the Serbian table. -/
theorem transliterate_no_table_chars (s : String) :
    ∀ c ∈ (transliterateSerbianCyrillic s).data, dictLookup CYRILLIC_TO_LATIN c = none := by
  intro c hc
  simp only [transliterateSerbianCyrillic, List.mem_flatten, List.mem_map] at hc
  obtain ⟨l, ⟨d, _, hd⟩, hcl⟩ := hc
  subst hd
  exact translitChar_no_table_chars d c hcl

/-- C9 counterexample: the Russian (non-Serbian) Cyrillic letter "э" is not in
the transliteration table, so in Serbian mode the persisted word
"э" still contains a Cyrillic codepoint after `_apply_transliteration`,
contradicting the claim that every persisted word string contains no Cyrillic
codepoints. -/
theorem serbian_translit_cyrillic_counterexample :
    (applyTransliteration ⟨some "э", []⟩ "Serbian").word = some "э" ∧
    containsCyrillic "э" = true := by
  constructor
  · rfl
  · decide

/-- C9 (amended): in Serbian mode, every persisted word string and every gloss
string contains no letter of the Serbian Cyrillic table (non-Serbian Cyrillic
codepoints pass through); the transliterator maps the digraph letters
Љ/љ to Lj/lj, Њ/њ to Nj/nj, Џ/џ to Dž/dž, and passes every codepoint not
listed in the table through unchanged. -/
theorem serbian_transliteration_amended :
    (∀ entry : FDEntry, ∀ w,
        (applyTransliteration entry "Serbian").word = some w →
        ∀ c ∈ w.data, dictLookup CYRILLIC_TO_LATIN c = none) ∧
    (∀ entry : FDEntry, ∀ sense, sense ∈ (applyTransliteration entry "Serbian").senses →
        ∀ g, sense.glosses = some g → ∀ gs ∈ glossStrings g,
        ∀ c ∈ gs.data, dictLookup CYRILLIC_TO_LATIN c = none) ∧
    (∀ c, dictLookup CYRILLIC_TO_LATIN c = none → translitChar c = [c]) ∧
    (dictLookup CYRILLIC_TO_LATIN 'Љ' = some "Lj" ∧
     dictLookup CYRILLIC_TO_LATIN 'љ' = some "lj" ∧
     dictLookup CYRILLIC_TO_LATIN 'Њ' = some "Nj" ∧
     dictLookup CYRILLIC_TO_LATIN 'њ' = some "nj" ∧
     dictLookup CYRILLIC_TO_LATIN 'Џ' = some "Dž" ∧
     dictLookup CYRILLIC_TO_LATIN 'џ' = some "dž") := by
  refine ⟨?_, ?_, ?_, by decide⟩
  · intro entry w hw c hc
    simp only [applyTransliteration, if_neg, ne_eq, not_true_eq_false, not_false_eq_true,
      ite_false, if_false] at hw
    rcases entry with ⟨word, senses⟩
    cases word with
    | none => simp at hw
    | some w0 =>
        simp at hw
        subst hw
        exact transliterate_no_table_chars w0 c hc
  · intro entry sense hs g hg gs hgs c hc
    simp only [applyTransliteration, ne_eq, not_true_eq_false, ite_false, if_false] at hs
    simp at hs
    obtain ⟨s0, _, hs0⟩ := hs
    subst hs0
    cases h0 : s0.glosses with
    | none => simp [h0] at hg
    | some g0 =>
        simp [h0] at hg
        subst hg
        cases g0 with
        | strVal s1 =>
            simp [translitGlossField, glossStrings] at hgs
            subst hgs
            exact transliterate_no_table_chars s1 c hc
        | listVal xs =>
            simp [translitGlossField, glossStrings] at hgs
            obtain ⟨x, _, hx⟩ := hgs
            subst hx
            exact transliterate_no_table_chars x c hc
  · intro c h
    unfold translitChar
    rw [h]

/-! ## Gloss retargeting (kaikki.py `KaikkiClient.apply_translation_glosses`,
duplicated as builder.py `Builder._apply_translation_glosses`) -/

/-- Python dict from lowercase headword to list of translations. -/
abbrev TranslationMap := List (String × List String)

/-- Characters of `s` up to (excluding) the first occurrence of `stop`;
Python `s.split(stop, 1)[0]`. -/
def takeUntil (stop : Char) (s : String) : String :=
  ⟨s.data.takeWhile (fun c => c ≠ stop)⟩

/-- Python `candidate.split(";", 1)[0].split("(", 1)[0].strip()`. -/
def stripGlossKey (candidate : String) : String :=
  pyStrip (takeUntil '(' (takeUntil ';' candidate))

/-- Translations contributed by one element of `sense.get("links") or []`:
only a non-empty list whose first element is a string contributes, via
`translation_map.get(pivot.lower(), [])`. -/
def linkContribution (tmap : TranslationMap) (link : J) : List String :=
  match link with
  | .arr (p :: _) =>
      match p with
      | .str s => (dictLookup tmap (pyLower s)).getD []
      | _ => []
  | _ => []

/-- The `links` loop of `apply_translation_glosses` (the result is consumed as
a set, so list order and duplicates are irrelevant downstream). -/
def linkTranslations (tmap : TranslationMap) (links : List J) : List String :=
  links.foldl (fun acc link => acc ++ linkContribution tmap link) []

/-- Translations contributed by one element of `sense.get("glosses") or []`:
for a string gloss, first the whole lowercased gloss as a key (if the key is
present its value is taken and the stripped key is not tried), then the
stripped key. -/
def glossContribution (tmap : TranslationMap) (g : J) : List String :=
  match g with
  | .str s =>
      match dictLookup tmap (pyLower s) with
      | some vs => vs
      | none =>
          match dictLookup tmap (stripGlossKey (pyLower s)) with
          | some vs => vs
          | none => []
  | _ => []

/-- The `glosses` fallback loop of `apply_translation_glosses`. -/
def glossTranslations (tmap : TranslationMap) (glosses : List J) : List String :=
  glosses.foldl (fun acc g => acc ++ glossContribution tmap g) []

/-- One sense as read and rewritten by `apply_translation_glosses`: the
defaulted `links`, `glosses` and `raw_glosses` lists (elements stay JSON
values because the code checks `isinstance` on each). -/
structure KSense where
  links : List J
  glosses : List J
  raw_glosses : List J

/-- Rewrite of a single sense by `apply_translation_glosses`: gather from
links, only on an empty result gather from glosses, and rewrite both gloss
fields with the sorted deduplicated gathering if it is non-empty. -/
def applyTranslationGlossesSense (tmap : TranslationMap) (s : KSense) : KSense :=
  let fromLinks := linkTranslations tmap s.links
  let translations :=
    if fromLinks.isEmpty then glossTranslations tmap s.glosses else fromLinks
  if translations.isEmpty then s
  else
    { s with glosses := (pySortedSet translations).map J.str,
             raw_glosses := (pySortedSet translations).map J.str }

/-- Entry shape for `apply_translation_glosses`: the senses list from
`entry.get("senses") or []`; all other entry fields are untouched. -/
structure KaikkiEntry where
  senses : List KSense

/-- KaikkiClient.apply_translation_glosses / Builder._apply_translation_glosses:
every sense of the entry is rewritten in place. -/
def applyTranslationGlosses (tmap : TranslationMap) (e : KaikkiEntry) : KaikkiEntry :=
  ⟨e.senses.map (applyTranslationGlossesSense tmap)⟩

theorem foldl_append_eq {α β : Type _} (f : β → List α) (l : List β) (acc : List α) :
    l.foldl (fun a b => a ++ f b) acc = acc ++ (l.map f).flatten := by
  induction l generalizing acc with
  | nil => simp
  | cons b rest ih => simp [ih, List.append_assoc]

theorem mem_foldl_contrib {α β : Type _} (f : β → List α) (l : List β) (t : α) :
    t ∈ l.foldl (fun a b => a ++ f b) [] ↔ ∃ b ∈ l, t ∈ f b := by
  rw [foldl_append_eq]
  simp [List.mem_flatten, List.mem_map]

theorem mem_linkContribution (tmap : TranslationMap) (link : J) (t : String) :
    t ∈ linkContribution tmap link ↔
      ∃ s0 rest, link = J.arr (J.str s0 :: rest) ∧
        ∃ vs, dictLookup tmap (pyLower s0) = some vs ∧ t ∈ vs := by
  cases link with
  | arr xs =>
      cases xs with
      | nil => simp [linkContribution]
      | cons p rest =>
          cases p with
          | str s =>
              cases h : dictLookup tmap (pyLower s) with
              | none => simp [linkContribution, h]
              | some vs => simp [linkContribution, h]
          | null => simp [linkContribution]
          | bool b => simp [linkContribution]
          | num n => simp [linkContribution]
          | arr ys => simp [linkContribution]
          | obj kvs => simp [linkContribution]
  | null => simp [linkContribution]
  | bool b => simp [linkContribution]
  | num n => simp [linkContribution]
  | str s => simp [linkContribution]
  | obj kvs => simp [linkContribution]

theorem mem_glossContribution (tmap : TranslationMap) (g : J) (t : String) :
    t ∈ glossContribution tmap g ↔
      ∃ s, g = J.str s ∧
        ((∃ vs, dictLookup tmap (pyLower s) = some vs ∧ t ∈ vs) ∨
         (dictLookup tmap (pyLower s) = none ∧
          ∃ vs, dictLookup tmap (stripGlossKey (pyLower s)) = some vs ∧ t ∈ vs)) := by
  cases g with
  | str s =>
      cases h : dictLookup tmap (pyLower s) with
      | some vs => simp [glossContribution, h]
      | none =>
          cases h2 : dictLookup tmap (stripGlossKey (pyLower s)) with
          | some vs => simp [glossContribution, h, h2]
          | none => simp [glossContribution, h, h2]
  | null => simp [glossContribution]
  | bool b => simp [glossContribution]
  | num n => simp [glossContribution]
  | arr ys => simp [glossContribution]
  | obj kvs => simp [glossContribution]

/-- C3: sense rewrite rule of gloss retargeting.  Translations gathered from
`links` come from `translation_map[link[0].lower()]` for the links that are
non-empty lists with a string head; only when that gathering is empty does
the gloss fallback run, trying the whole lowercased gloss and then its
stripped prefix up to the first `;` or `(`; if anything was gathered, both
`glosses` and `raw_glosses` become the sorted deduplicated gathering,
otherwise the sense is untouched. -/
theorem applyTranslationGlosses_spec (tmap : TranslationMap) (s : KSense) :
    (∀ t, t ∈ linkTranslations tmap s.links ↔
        ∃ s0 rest, J.arr (J.str s0 :: rest) ∈ s.links ∧
          ∃ vs, dictLookup tmap (pyLower s0) = some vs ∧ t ∈ vs) ∧
    (∀ t, t ∈ glossTranslations tmap s.glosses ↔
        ∃ g, J.str g ∈ s.glosses ∧
          ((∃ vs, dictLookup tmap (pyLower g) = some vs ∧ t ∈ vs) ∨
           (dictLookup tmap (pyLower g) = none ∧
            ∃ vs, dictLookup tmap (stripGlossKey (pyLower g)) = some vs ∧ t ∈ vs))) ∧
    (let gathered :=
        if (linkTranslations tmap s.links).isEmpty
        then glossTranslations tmap s.glosses else linkTranslations tmap s.links
     let res := applyTranslationGlossesSense tmap s
     (gathered = [] → res = s) ∧
     (gathered ≠ [] →
        res.glosses = (pySortedSet gathered).map J.str ∧
        res.raw_glosses = res.glosses ∧ res.links = s.links) ∧
     List.Sorted (fun a b => a ≤ b) (pySortedSet gathered) ∧
     (pySortedSet gathered).Nodup ∧
     (∀ t, t ∈ pySortedSet gathered ↔ t ∈ gathered)) ∧
    (∀ e : KaikkiEntry,
        (applyTranslationGlosses tmap e).senses =
          e.senses.map (applyTranslationGlossesSense tmap)) := by
  refine ⟨?_, ?_, ?_, fun e => rfl⟩
  · intro t
    unfold linkTranslations
    rw [mem_foldl_contrib]
    constructor
    · rintro ⟨link, hl, ht⟩
      obtain ⟨s0, rest, hlink, vs, hvs, htv⟩ := (mem_linkContribution tmap link t).mp ht
      exact ⟨s0, rest, hlink ▸ hl, vs, hvs, htv⟩
    · rintro ⟨s0, rest, hl, vs, hvs, htv⟩
      refine ⟨J.arr (J.str s0 :: rest), hl, ?_⟩
      exact (mem_linkContribution tmap _ t).mpr ⟨s0, rest, rfl, vs, hvs, htv⟩
  · intro t
    unfold glossTranslations
    rw [mem_foldl_contrib]
    constructor
    · rintro ⟨g, hg, ht⟩
      obtain ⟨s0, hgs, hcases⟩ := (mem_glossContribution tmap g t).mp ht
      exact ⟨s0, hgs ▸ hg, hcases⟩
    · rintro ⟨g, hg, hcases⟩
      exact ⟨J.str g, hg, (mem_glossContribution tmap _ t).mpr ⟨g, rfl, hcases⟩⟩
  · refine ⟨?_, ?_, pySortedSet_sorted _, pySortedSet_nodup _, fun t => mem_pySortedSet _ t⟩
    · intro hempty
      unfold applyTranslationGlossesSense
      simp only [hempty]
      simp
    · intro hne
      unfold applyTranslationGlossesSense
      simp only []
      rw [if_neg (by simpa [List.isEmpty_iff] using hne)]
      exact ⟨rfl, rfl, rfl⟩

/-! ## Translation map (kaikki.py `KaikkiClient.load_translation_map`) -/

/-- Entry shape read by `load_translation_map`: `entry.get("word")` and the
list `entry.get("senses", [])` (the elements stay JSON values because the
code checks `isinstance` on each sense and translation). -/
structure KEntry where
  word : Option J
  senses : List J

/-- Words contributed by one element of `sense.get("translations") or []`:
the element must be a dict whose `lang` equals the target language and whose
`word` is a string. -/
def translationContribution (target : String) (tr : J) : List String :=
  match tr with
  | .obj tkvs =>
      if jIsStr (jGet tkvs "lang") target then
        match jGet tkvs "word" with
        | some (.str w) => [w]
        | _ => []
      else []
  | _ => []

/-- Words contributed by one element of the `senses` list (non-dict senses
contribute nothing). -/
def senseTranslationWords (target : String) (sense : J) : List String :=
  match sense with
  | .obj skvs =>
      (pyListOr (jGet skvs "translations")).foldl
        (fun acc tr => acc ++ translationContribution target tr) []
  | _ => []

/-- The translation set collected for one entry (consumed as a set: order and
duplicates are removed by the final `sorted`). -/
def entryTranslationWords (target : String) (e : KEntry) : List String :=
  e.senses.foldl (fun acc sense => acc ++ senseTranslationWords target sense) []

/-- One iteration of the `load_translation_map` loop: entries without a string
word or without matching translations leave the map unchanged, otherwise
`mapping[headword.lower()] = sorted(translations)`. -/
def translationMapStep (target : String) (mapping : TranslationMap) (e : KEntry) :
    TranslationMap :=
  match e.word with
  | some (.str w) =>
      if (entryTranslationWords target e).isEmpty then mapping
      else dictInsert mapping (pyLower w) (pySortedSet (entryTranslationWords target e))
  | _ => mapping

/-- KaikkiClient.load_translation_map, build phase (the mtime/in-memory cache
layers return a previously built map unchanged and are not modelled). -/
def loadTranslationMap (target : String) (entries : List KEntry) : TranslationMap :=
  entries.foldl (translationMapStep target) []

/-- Predicate: entry `e` puts key `k` into the translation map. -/
def entryYields (target : String) (k : String) (e : KEntry) : Prop :=
  ∃ w, e.word = some (J.str w) ∧ pyLower w = k ∧ entryTranslationWords target e ≠ []

theorem jIsStr_iff (v : Option J) (s : String) : jIsStr v s = true ↔ v = some (J.str s) := by
  cases v with
  | none => simp [jIsStr]
  | some j => cases j <;> simp [jIsStr]

theorem lookup_translationMapStep_yields (target : String) (m : TranslationMap)
    (e : KEntry) (k : String) (hy : entryYields target k e) :
    dictLookup (translationMapStep target m e) k =
      some (pySortedSet (entryTranslationWords target e)) := by
  obtain ⟨w, hw, hk, hne⟩ := hy
  have hemp : (entryTranslationWords target e).isEmpty = false := by
    simpa [List.isEmpty_iff] using hne
  simp only [translationMapStep, hw, hemp, Bool.false_eq_true, if_false]
  rw [← hk]
  exact dictLookup_dictInsert_self _ _ _

theorem lookup_translationMapStep_not_yields (target : String) (m : TranslationMap)
    (e : KEntry) (k : String) (hn : ¬ entryYields target k e) :
    dictLookup (translationMapStep target m e) k = dictLookup m k := by
  cases hw : e.word with
  | none => simp only [translationMapStep, hw]
  | some j =>
      cases j with
      | str w =>
          by_cases hemp : (entryTranslationWords target e).isEmpty = true
          · simp only [translationMapStep, hw, hemp, if_true]
          · simp only [translationMapStep, hw, Bool.not_eq_true .. ▸ hemp, if_neg hemp]
            have hk : k ≠ pyLower w := by
              intro hk
              exact hn ⟨w, hw, hk.symm, by simpa [List.isEmpty_iff] using hemp⟩
            exact dictLookup_dictInsert_ne _ _ _ _ hk
      | null => simp only [translationMapStep, hw]
      | bool b => simp only [translationMapStep, hw]
      | num n => simp only [translationMapStep, hw]
      | arr xs => simp only [translationMapStep, hw]
      | obj kvs => simp only [translationMapStep, hw]

theorem lookup_foldl_translationMap (target : String) (es : List KEntry)
    (m : TranslationMap) (k : String) :
    ((dictLookup (es.foldl (translationMapStep target) m) k).isSome = true ↔
       (dictLookup m k).isSome = true ∨ ∃ e ∈ es, entryYields target k e) ∧
    (∀ v, dictLookup (es.foldl (translationMapStep target) m) k = some v →
       dictLookup m k = some v ∨
       ∃ e ∈ es, entryYields target k e ∧
         v = pySortedSet (entryTranslationWords target e)) := by
  induction es generalizing m with
  | nil => simp
  | cons e es ih =>
      simp only [List.foldl_cons]
      obtain ⟨ihA, ihB⟩ := ih (translationMapStep target m e)
      by_cases hy : entryYields target k e
      · constructor
        · rw [ihA, lookup_translationMapStep_yields target m e k hy]
          simp only [Option.isSome_some, true_or, true_iff]
          exact Or.inr ⟨e, List.mem_cons_self _ _, hy⟩
        · intro v hv
          rcases ihB v hv with h | ⟨e1, he1, hy1, hv1⟩
          · rw [lookup_translationMapStep_yields target m e k hy] at h
            exact Or.inr ⟨e, List.mem_cons_self _ _, hy, (Option.some.injEq _ _).mp h.symm⟩
          · exact Or.inr ⟨e1, List.mem_cons_of_mem _ he1, hy1, hv1⟩
      · constructor
        · rw [ihA, lookup_translationMapStep_not_yields target m e k hy]
          constructor
          · rintro (h | ⟨e1, he1, hy1⟩)
            · exact Or.inl h
            · exact Or.inr ⟨e1, List.mem_cons_of_mem _ he1, hy1⟩
          · rintro (h | ⟨e1, he1, hy1⟩)
            · exact Or.inl h
            · rcases List.mem_cons.mp he1 with rfl | he1
              · exact absurd hy1 hy
              · exact Or.inr ⟨e1, he1, hy1⟩
        · intro v hv
          rcases ihB v hv with h | ⟨e1, he1, hy1, hv1⟩
          · rw [lookup_translationMapStep_not_yields target m e k hy] at h
            exact Or.inl h
          · exact Or.inr ⟨e1, List.mem_cons_of_mem _ he1, hy1, hv1⟩

/-- C5: the translation map contains key `k` exactly when some entry with a
string word lowercasing to `k` has at least one matching translation; every
stored value is the sorted deduplicated translation set of such an entry; a
word of a sense's translation is collected exactly when the translation is a
dict with `lang` equal to the target language and a string `word`. -/
theorem loadTranslationMap_spec (target : String) (entries : List KEntry) :
    (∀ k, (dictLookup (loadTranslationMap target entries) k).isSome = true ↔
        ∃ e ∈ entries, entryYields target k e) ∧
    (∀ k v, dictLookup (loadTranslationMap target entries) k = some v →
        List.Sorted (fun a b => a ≤ b) v ∧ v.Nodup ∧
        ∃ e ∈ entries, entryYields target k e ∧
          ∀ t, t ∈ v ↔ t ∈ entryTranslationWords target e) ∧
    (∀ e : KEntry, ∀ t, t ∈ entryTranslationWords target e ↔
        ∃ sense ∈ e.senses, ∃ skvs, sense = J.obj skvs ∧
          ∃ tr ∈ pyListOr (jGet skvs "translations"), ∃ tkvs, tr = J.obj tkvs ∧
            jGet tkvs "lang" = some (J.str target) ∧
            jGet tkvs "word" = some (J.str t)) := by
  refine ⟨?_, ?_, ?_⟩
  · intro k
    have h := (lookup_foldl_translationMap target entries [] k).1
    simpa [loadTranslationMap, dictLookup] using h
  · intro k v hv
    have h := (lookup_foldl_translationMap target entries [] k).2 v hv
    simp only [dictLookup] at h
    rcases h with h | ⟨e, he, hy, hveq⟩
    · cases h
    · subst hveq
      exact ⟨pySortedSet_sorted _, pySortedSet_nodup _,
        e, he, hy, fun t => mem_pySortedSet _ t⟩
  · intro e t
    unfold entryTranslationWords
    rw [mem_foldl_contrib]
    constructor
    · rintro ⟨sense, hsense, ht⟩
      cases sense with
      | obj skvs =>
          simp only [senseTranslationWords] at ht
          rw [mem_foldl_contrib] at ht
          obtain ⟨tr, htr, htc⟩ := ht
          cases tr with
          | obj tkvs =>
              simp only [translationContribution] at htc
              by_cases hlang : jIsStr (jGet tkvs "lang") target
              · rw [if_pos hlang] at htc
                cases hword : jGet tkvs "word" with
                | some j =>
                    cases j with
                    | str w =>
                        rw [hword] at htc
                        simp at htc
                        subst htc
                        exact ⟨J.obj skvs, hsense, skvs, rfl, J.obj tkvs, htr, tkvs, rfl,
                          (jIsStr_iff _ _).mp hlang, hword⟩
                    | null => rw [hword] at htc; simp at htc
                    | bool b => rw [hword] at htc; simp at htc
                    | num n => rw [hword] at htc; simp at htc
                    | arr xs => rw [hword] at htc; simp at htc
                    | obj kvs2 => rw [hword] at htc; simp at htc
                | none => rw [hword] at htc; simp at htc
              · rw [if_neg hlang] at htc
                simp at htc
          | null => simp [translationContribution] at htc
          | bool b => simp [translationContribution] at htc
          | num n => simp [translationContribution] at htc
          | str s => simp [translationContribution] at htc
          | arr xs => simp [translationContribution] at htc
      | null => simp [senseTranslationWords] at ht
      | bool b => simp [senseTranslationWords] at ht
      | num n => simp [senseTranslationWords] at ht
      | str s => simp [senseTranslationWords] at ht
      | arr xs => simp [senseTranslationWords] at ht
    · rintro ⟨sense, hsense, skvs, rfl, tr, htr, tkvs, rfl, hlang, hword⟩
      refine ⟨J.obj skvs, hsense, ?_⟩
      simp only [senseTranslationWords]
      rw [mem_foldl_contrib]
      refine ⟨J.obj tkvs, htr, ?_⟩
      simp only [translationContribution]
      rw [if_pos ((jIsStr_iff _ _).mpr hlang), hword]
      simp

/-! ## Chained translation (source_freedict.py
`FreeDictSource._try_chained_translation`) -/

/-- One parsed StarDict-derived sense: just its `glosses` value (string or
list shape, the two `isinstance` branches of the chaining code). -/
structure CSense where
  glosses : GlossField
deriving DecidableEq

/-- One parsed StarDict-derived entry: `entry.get("word", "")` plus senses. -/
structure CEntry where
  word : String
  senses : List CSense
deriving DecidableEq

/-- Both the pivot-map build and the chained lookup read a sense's glosses
the same way: a string gloss counts as one element, a list contributes its
elements. -/
def senseGlossList : GlossField → List String
  | .strVal g => [g]
  | .listVal xs => xs

/-- The flat gloss list of one entry, concatenated across its senses (the
`glosses` accumulator of the pivot-map loop). -/
def entryGlossConcat (e : CEntry) : List String :=
  e.senses.foldl (fun acc s => acc ++ senseGlossList s.glosses) []

/-- One iteration of the pivot-map loop: entries with no glosses leave the
map unchanged, otherwise `pivot_map[word_lower] = glosses`. -/
def pivotMapStep (m : TranslationMap) (e : CEntry) : TranslationMap :=
  if (entryGlossConcat e).isEmpty then m
  else dictInsert m (pyLower e.word) (entryGlossConcat e)

/-- The pivot translation map built from the English-to-target corpus. -/
def buildPivotMap (secondPair : List CEntry) : TranslationMap :=
  secondPair.foldl pivotMapStep []

/-- Glosses contributed by looking one pivot word up in the pivot map
(`pivot_map[pivot_word.lower().strip()]` when present). -/
def pivotContribution (pmap : TranslationMap) (pw : String) : List String :=
  (dictLookup pmap (pyStrip (pyLower pw))).getD []

/-- The union (as a list, deduplicated later by the set) of pivot-map lookups
over every gloss of a source-to-English entry. -/
def entryChainedGlosses (pmap : TranslationMap) (e : CEntry) : List String :=
  e.senses.foldl
    (fun acc s =>
      (senseGlossList s.glosses).foldl
        (fun acc2 pw => acc2 ++ pivotContribution pmap pw) acc)
    []

/-- Output entry of the chaining pass (`word`, sorted glosses, and
`raw_glosses` equal to `glosses`; the constant `pos` field is omitted). -/
structure ChainedEntry where
  word : String
  glosses : List String
  raw_glosses : List String
deriving DecidableEq

/-- Output entries contributed by one source-to-English entry: one entry when
the gloss union is non-empty, nothing otherwise. -/
def chainedOne (pmap : TranslationMap) (e : CEntry) : List ChainedEntry :=
  if (entryChainedGlosses pmap e).isEmpty then []
  else [⟨e.word, pySortedSet (entryChainedGlosses pmap e),
        pySortedSet (entryChainedGlosses pmap e)⟩]

/-- FreeDictSource._try_chained_translation, chaining core: build the pivot
map from the English-to-target corpus, then emit one output entry per
source-to-English entry whose gloss union is non-empty. -/
def chainedEntries (firstPair secondPair : List CEntry) : List ChainedEntry :=
  firstPair.foldl
    (fun out e => out ++ chainedOne (buildPivotMap secondPair) e) []

/-- Predicate: entry `e` of the second corpus puts key `k` into the pivot map. -/
def pivotYields (k : String) (e : CEntry) : Prop :=
  pyLower e.word = k ∧ entryGlossConcat e ≠ []

theorem lookup_pivotMapStep_yields (m : TranslationMap) (e : CEntry) (k : String)
    (hy : pivotYields k e) :
    dictLookup (pivotMapStep m e) k = some (entryGlossConcat e) := by
  obtain ⟨hk, hne⟩ := hy
  have hemp : (entryGlossConcat e).isEmpty = false := by
    simpa [List.isEmpty_iff] using hne
  simp only [pivotMapStep, hemp, Bool.false_eq_true, if_false]
  rw [← hk]
  exact dictLookup_dictInsert_self _ _ _

theorem lookup_pivotMapStep_not_yields (m : TranslationMap) (e : CEntry) (k : String)
    (hn : ¬ pivotYields k e) :
    dictLookup (pivotMapStep m e) k = dictLookup m k := by
  by_cases hemp : (entryGlossConcat e).isEmpty = true
  · simp only [pivotMapStep, hemp, if_true]
  · simp only [pivotMapStep, if_neg hemp]
    have hk : k ≠ pyLower e.word := by
      intro hk
      exact hn ⟨hk.symm, by simpa [List.isEmpty_iff] using hemp⟩
    exact dictLookup_dictInsert_ne _ _ _ _ hk

theorem lookup_foldl_pivotMap (es : List CEntry) (m : TranslationMap) (k : String) :
    ((dictLookup (es.foldl pivotMapStep m) k).isSome = true ↔
       (dictLookup m k).isSome = true ∨ ∃ e ∈ es, pivotYields k e) ∧
    (∀ v, dictLookup (es.foldl pivotMapStep m) k = some v →
       dictLookup m k = some v ∨
       ∃ e ∈ es, pivotYields k e ∧ v = entryGlossConcat e) := by
  induction es generalizing m with
  | nil => simp
  | cons e es ih =>
      simp only [List.foldl_cons]
      obtain ⟨ihA, ihB⟩ := ih (pivotMapStep m e)
      by_cases hy : pivotYields k e
      · constructor
        · rw [ihA, lookup_pivotMapStep_yields m e k hy]
          simp only [Option.isSome_some, true_or, true_iff]
          exact Or.inr ⟨e, List.mem_cons_self _ _, hy⟩
        · intro v hv
          rcases ihB v hv with h | ⟨e1, he1, hy1, hv1⟩
          · rw [lookup_pivotMapStep_yields m e k hy] at h
            exact Or.inr ⟨e, List.mem_cons_self _ _, hy, (Option.some.injEq _ _).mp h.symm⟩
          · exact Or.inr ⟨e1, List.mem_cons_of_mem _ he1, hy1, hv1⟩
      · constructor
        · rw [ihA, lookup_pivotMapStep_not_yields m e k hy]
          constructor
          · rintro (h | ⟨e1, he1, hy1⟩)
            · exact Or.inl h
            · exact Or.inr ⟨e1, List.mem_cons_of_mem _ he1, hy1⟩
          · rintro (h | ⟨e1, he1, hy1⟩)
            · exact Or.inl h
            · rcases List.mem_cons.mp he1 with rfl | he1
              · exact absurd hy1 hy
              · exact Or.inr ⟨e1, he1, hy1⟩
        · intro v hv
          rcases ihB v hv with h | ⟨e1, he1, hy1, hv1⟩
          · rw [lookup_pivotMapStep_not_yields m e k hy] at h
            exact Or.inl h
          · exact Or.inr ⟨e1, List.mem_cons_of_mem _ he1, hy1, hv1⟩

theorem mem_getD_nil {α : Type _} (o : Option (List α)) (t : α) :
    t ∈ o.getD [] ↔ ∃ vs, o = some vs ∧ t ∈ vs := by
  cases o <;> simp

theorem mem_entryChainedGlosses (pmap : TranslationMap) (e : CEntry) (t : String) :
    t ∈ entryChainedGlosses pmap e ↔
      ∃ g ∈ entryGlossConcat e, ∃ vs,
        dictLookup pmap (pyStrip (pyLower g)) = some vs ∧ t ∈ vs := by
  have hconcat : ∀ g, g ∈ entryGlossConcat e ↔
      ∃ s ∈ e.senses, g ∈ senseGlossList s.glosses := by
    intro g
    unfold entryGlossConcat
    rw [mem_foldl_contrib]
  unfold entryChainedGlosses
  simp only [foldl_append_eq, List.nil_append]
  constructor
  · intro ht
    rw [List.mem_flatten] at ht
    obtain ⟨l0, hl0, htl⟩ := ht
    rw [List.mem_map] at hl0
    obtain ⟨s, hs, hl0⟩ := hl0
    subst hl0
    rw [List.mem_flatten] at htl
    obtain ⟨l1, hl1, htl1⟩ := htl
    rw [List.mem_map] at hl1
    obtain ⟨pw, hpw, hl1⟩ := hl1
    subst hl1
    unfold pivotContribution at htl1
    rw [mem_getD_nil] at htl1
    obtain ⟨vs, hvs, htv⟩ := htl1
    exact ⟨pw, (hconcat pw).mpr ⟨s, hs, hpw⟩, vs, hvs, htv⟩
  · rintro ⟨g, hg, vs, hvs, htv⟩
    obtain ⟨s, hs, hgs⟩ := (hconcat g).mp hg
    rw [List.mem_flatten]
    refine ⟨((senseGlossList s.glosses).map (pivotContribution pmap)).flatten,
      List.mem_map_of_mem _ hs, ?_⟩
    rw [List.mem_flatten]
    refine ⟨pivotContribution pmap g, List.mem_map_of_mem _ hgs, ?_⟩
    unfold pivotContribution
    rw [mem_getD_nil]
    exact ⟨vs, hvs, htv⟩

theorem mem_chainedEntries (fst snd : List CEntry) (c : ChainedEntry) :
    c ∈ chainedEntries fst snd ↔
      ∃ e ∈ fst, entryChainedGlosses (buildPivotMap snd) e ≠ [] ∧
        c = ⟨e.word, pySortedSet (entryChainedGlosses (buildPivotMap snd) e),
             pySortedSet (entryChainedGlosses (buildPivotMap snd) e)⟩ := by
  unfold chainedEntries
  rw [mem_foldl_contrib]
  constructor
  · rintro ⟨e, he, hc⟩
    unfold chainedOne at hc
    by_cases hemp : (entryChainedGlosses (buildPivotMap snd) e).isEmpty = true
    · rw [if_pos hemp] at hc
      simp at hc
    · rw [if_neg hemp] at hc
      simp only [List.mem_singleton] at hc
      exact ⟨e, he, by simpa [List.isEmpty_iff] using hemp, hc⟩
  · rintro ⟨e, he, hne, hc⟩
    refine ⟨e, he, ?_⟩
    unfold chainedOne
    rw [if_neg (by simpa [List.isEmpty_iff] using hne)]
    simp [hc]

/-- C6: the chaining pass builds a map from lowercased pivot word to that
entry's gloss list (entries with no glosses are absent); a source-to-English
entry appears in the chained output exactly when the union of pivot-map
lookups over its glosses is non-empty, and then its `glosses` and
`raw_glosses` are the sorted deduplicated union. -/
theorem chainedTranslation_spec (fst snd : List CEntry) :
    (∀ k, (dictLookup (buildPivotMap snd) k).isSome = true ↔
        ∃ e ∈ snd, pyLower e.word = k ∧ entryGlossConcat e ≠ []) ∧
    (∀ k v, dictLookup (buildPivotMap snd) k = some v →
        ∃ e ∈ snd, pyLower e.word = k ∧ v = entryGlossConcat e) ∧
    (∀ c, c ∈ chainedEntries fst snd ↔
        ∃ e ∈ fst, entryChainedGlosses (buildPivotMap snd) e ≠ [] ∧
          c = ⟨e.word, pySortedSet (entryChainedGlosses (buildPivotMap snd) e),
               pySortedSet (entryChainedGlosses (buildPivotMap snd) e)⟩) ∧
    (∀ pmap : TranslationMap, ∀ e : CEntry, ∀ t,
        t ∈ entryChainedGlosses pmap e ↔
          ∃ g ∈ entryGlossConcat e, ∃ vs,
            dictLookup pmap (pyStrip (pyLower g)) = some vs ∧ t ∈ vs) ∧
    (∀ e : CEntry, ∀ g, g ∈ entryGlossConcat e ↔
        ∃ s ∈ e.senses, g ∈ senseGlossList s.glosses) ∧
    (∀ c, c ∈ chainedEntries fst snd →
        List.Sorted (fun a b => a ≤ b) c.glosses ∧ c.glosses.Nodup ∧
        c.raw_glosses = c.glosses) := by
  refine ⟨?_, ?_, mem_chainedEntries fst snd, mem_entryChainedGlosses, ?_, ?_⟩
  · intro k
    have h := (lookup_foldl_pivotMap snd [] k).1
    simpa [buildPivotMap, dictLookup, pivotYields] using h
  · intro k v hv
    have h := (lookup_foldl_pivotMap snd [] k).2 v hv
    simp only [dictLookup] at h
    rcases h with h | ⟨e, he, hy, hveq⟩
    · cases h
    · exact ⟨e, he, hy.1, hveq⟩
  · intro e g
    unfold entryGlossConcat
    rw [mem_foldl_contrib]
  · intro c hc
    obtain ⟨e, _, _, hc⟩ := (mem_chainedEntries fst snd c).mp hc
    subst hc
    exact ⟨pySortedSet_sorted _, pySortedSet_nodup _, rfl⟩

/-! ## StarDict source error containment (source_freedict.py
`FreeDictSource.get_entries`, `_get_direct_or_chained`,
`_create_empty_result`) -/

/-- Typed failures of the FreeDict source (FreeDictDownloadError,
FreeDictParseError and FreeDictChainError). -/
inductive FDErr where
  | downloadError
  | parseError
  | chainError
deriving DecidableEq

/-- FreeDictSource._try_chained_translation as a function of the outcome of
fetching its two legs: any leg failure (and any unexpected error) is wrapped
into a FreeDictChainError, a success runs the chaining core. -/
def tryChainedTranslation (legs : Except FDErr (List CEntry × List CEntry)) :
    Except Unit (List ChainedEntry) :=
  match legs with
  | .ok (fst, snd) => .ok (chainedEntries fst snd)
  | .error _ => .error ()

/-- FreeDictSource._get_direct_or_chained: try the direct pair; only on a
FreeDictDownloadError fall back to chaining, whose failure surfaces as a
FreeDictChainError; the chained count is the number of lines written. -/
def getDirectOrChained (direct : Except FDErr (List ChainedEntry × Nat))
    (legs : Except FDErr (List CEntry × List CEntry)) :
    Except FDErr (List ChainedEntry × Nat) :=
  match direct with
  | .ok r => .ok r
  | .error .downloadError =>
      match tryChainedTranslation legs with
      | .ok entries => .ok (entries, entries.length)
      | .error _ => .error .chainError
  | .error e => .error e

/-- FreeDictSource.get_entries: FreeDictDownloadError and FreeDictChainError
are caught and replaced by `_create_empty_result` (an empty touched file and
count 0); anything else propagates. -/
def getEntries (direct : Except FDErr (List ChainedEntry × Nat))
    (legs : Except FDErr (List CEntry × List CEntry)) :
    Except FDErr (List ChainedEntry × Nat) :=
  match getDirectOrChained direct legs with
  | .ok r => .ok r
  | .error .downloadError => .ok ([], 0)
  | .error .chainError => .ok ([], 0)
  | .error e => .error e

/-- C7: a download or chaining failure never escapes `get_entries`; when the
direct pair fails with a download error and the pivot chain fails too, the
result is an empty entry file with count 0, so assembly proceeds with zero
entries from this source.  Successful outcomes pass through unchanged. -/
theorem getEntries_error_containment :
    (∀ direct legs e, getEntries direct legs = .error e → e = FDErr.parseError) ∧
    (∀ e2, getEntries (.error .downloadError)
        (.error e2) = .ok ([], 0)) ∧
    (∀ r legs, getEntries (.ok r) legs = .ok r) ∧
    (∀ fst snd, getEntries (.error .downloadError) (.ok (fst, snd)) =
        .ok (chainedEntries fst snd, (chainedEntries fst snd).length)) := by
  refine ⟨?_, fun e2 => rfl, fun r legs => rfl, fun fst snd => rfl⟩
  intro direct legs e h
  cases direct with
  | ok r => simp [getEntries, getDirectOrChained] at h
  | error e0 =>
      cases e0 with
      | downloadError =>
          cases legs with
          | ok p =>
              obtain ⟨fst, snd⟩ := p
              simp [getEntries, getDirectOrChained, tryChainedTranslation] at h
          | error e2 =>
              simp [getEntries, getDirectOrChained, tryChainedTranslation] at h
      | parseError =>
          simp [getEntries, getDirectOrChained] at h
          exact h.symm
      | chainError =>
          simp [getEntries, getDirectOrChained] at h

/-! ## Entry content predicate (source_base.py
`DictionarySource.entry_has_content` and the FreeDict override
`FreeDictSource.entry_has_content`, plus the StarDict emission filter at the
end of `_parse_stardict_files`) -/

/-- The `_iter_values` helper of the base implementation: a string counts as
one value, a list contributes its string elements, everything else nothing. -/
def iterGlossValues : Option J → List String
  | some (.str s) => [s]
  | some (.arr xs) =>
      xs.filterMap (fun v => match v with | .str s => some s | _ => none)
  | _ => []

/-- Per-sense test of the base implementation: some value under `glosses` or
`raw_glosses` has a non-whitespace string. -/
def senseHasContentBase (sense : J) : Bool :=
  match sense with
  | .obj skvs =>
      (iterGlossValues (jGet skvs "glosses")).any (fun v => !((pyStrip v).data.isEmpty)) ||
      (iterGlossValues (jGet skvs "raw_glosses")).any (fun v => !((pyStrip v).data.isEmpty))
  | _ => false

/-- DictionarySource.entry_has_content (source_base.py). -/
def entry_has_content (entry : J) : Bool :=
  match entry with
  | .obj kvs =>
      match jGet kvs "senses" with
      | some (.arr senses) =>
          if senses.isEmpty then false else senses.any senseHasContentBase
      | _ => false
  | _ => false

/-- Per-sense test of the FreeDict override: only the `glosses` key is
consulted. -/
def senseHasContentFreedict (sense : J) : Bool :=
  match sense with
  | .obj skvs =>
      match jGet skvs "glosses" with
      | some (.str s) => !((pyStrip s).data.isEmpty)
      | some (.arr xs) =>
          xs.any (fun g => match g with | .str s => !((pyStrip s).data.isEmpty) | _ => false)
      | _ => false
  | _ => false

/-- FreeDictSource.entry_has_content (the override used on the StarDict
emission path). -/
def freedict_entry_has_content (entry : J) : Bool :=
  match entry with
  | .obj kvs =>
      match jGet kvs "senses" with
      | some (.arr senses) =>
          if senses.isEmpty then false else senses.any senseHasContentFreedict
      | _ => false
  | _ => false

/-- FreeDictSource._convert_to_kaikki_format: the StarDict definition is
turned into one sense with equal `glosses` and `raw_glosses` (the glosses are
the output of `_extract_glosses`, taken here as a parameter; the constant
`pos` field is irrelevant to the content checks). -/
def convertToKaikkiFormat (word : String) (glosses : List String) : J :=
  .obj [("word", .str word), ("pos", .str "noun"),
        ("senses", .arr [.obj [("glosses", .arr (glosses.map .str)),
                               ("raw_glosses", .arr (glosses.map .str))]])]

/-- Emission filter at the end of `_parse_stardict_files`: each converted
entry is kept iff `self.entry_has_content` (the FreeDict override) holds. -/
def stardictEntries (defs : List (String × List String)) : List J :=
  (defs.map (fun wd => convertToKaikkiFormat wd.1 wd.2)).filter
    freedict_entry_has_content

theorem senseHasContentBase_iff (sense : J) :
    senseHasContentBase sense = true ↔
      ∃ skvs, sense = J.obj skvs ∧ ∃ v,
        (v ∈ iterGlossValues (jGet skvs "glosses") ∨
         v ∈ iterGlossValues (jGet skvs "raw_glosses")) ∧
        (pyStrip v).data.isEmpty = false := by
  cases sense with
  | obj skvs =>
      simp only [senseHasContentBase, Bool.or_eq_true, List.any_eq_true,
        Bool.not_eq_true', J.obj.injEq]
      constructor
      · rintro (⟨v, hv, hp⟩ | ⟨v, hv, hp⟩)
        · exact ⟨skvs, rfl, v, Or.inl hv, hp⟩
        · exact ⟨skvs, rfl, v, Or.inr hv, hp⟩
      · rintro ⟨skvs2, heq, v, hv | hv, hp⟩
        · subst heq
          exact Or.inl ⟨v, hv, hp⟩
        · subst heq
          exact Or.inr ⟨v, hv, hp⟩
  | null => simp [senseHasContentBase]
  | bool b => simp [senseHasContentBase]
  | num n => simp [senseHasContentBase]
  | str s => simp [senseHasContentBase]
  | arr xs => simp [senseHasContentBase]

theorem senseHasContentFreedict_eq (sense : J) :
    senseHasContentFreedict sense =
      (match sense with
       | J.obj skvs =>
           (iterGlossValues (jGet skvs "glosses")).any (fun v => !((pyStrip v).data.isEmpty))
       | _ => false) := by
  cases sense with
  | obj skvs =>
      simp only [senseHasContentFreedict]
      cases h : jGet skvs "glosses" with
      | none => simp [iterGlossValues]
      | some j =>
          cases j with
          | str s => simp [iterGlossValues]
          | arr xs =>
              simp only [iterGlossValues, List.any_filterMap]
              congr 1
              funext g
              cases g <;> rfl
          | null => simp [iterGlossValues]
          | bool b => simp [iterGlossValues]
          | num n => simp [iterGlossValues]
          | obj kvs2 => simp [iterGlossValues]
  | null => rfl
  | bool b => rfl
  | num n => rfl
  | str s => rfl
  | arr xs => rfl

theorem entry_has_content_iff_sense (entry : J) :
    entry_has_content entry = true ↔
      ∃ kvs senses, entry = J.obj kvs ∧ jGet kvs "senses" = some (J.arr senses) ∧
        senses ≠ [] ∧ ∃ sense ∈ senses, senseHasContentBase sense = true := by
  cases entry with
  | obj kvs =>
      cases h : jGet kvs "senses" with
      | none => simp [entry_has_content, h]
      | some j =>
          cases j with
          | arr senses =>
              by_cases hemp : senses.isEmpty = true
              · simp [entry_has_content, h, hemp, List.isEmpty_iff.mp hemp]
              · simp only [entry_has_content, h, if_neg hemp, List.any_eq_true,
                  J.obj.injEq, Option.some.injEq, J.arr.injEq]
                constructor
                · rintro ⟨sense, hs, hcs⟩
                  exact ⟨kvs, senses, rfl, h,
                    by simpa [List.isEmpty_iff] using hemp, sense, hs, hcs⟩
                · rintro ⟨kvs2, senses2, heq, hget, hne2, sense, hs, hcs⟩
                  subst heq
                  rw [h] at hget
                  have hss : senses2 = senses := by simpa using hget.symm
                  subst hss
                  exact ⟨sense, hs, hcs⟩
          | null => simp [entry_has_content, h]
          | bool b => simp [entry_has_content, h]
          | num n => simp [entry_has_content, h]
          | str s => simp [entry_has_content, h]
          | obj kvs2 => simp [entry_has_content, h]
  | null => simp [entry_has_content]
  | bool b => simp [entry_has_content]
  | num n => simp [entry_has_content]
  | str s => simp [entry_has_content]
  | arr xs => simp [entry_has_content]

theorem freedict_entry_has_content_iff_sense (entry : J) :
    freedict_entry_has_content entry = true ↔
      ∃ kvs senses, entry = J.obj kvs ∧ jGet kvs "senses" = some (J.arr senses) ∧
        senses ≠ [] ∧ ∃ sense ∈ senses, senseHasContentFreedict sense = true := by
  cases entry with
  | obj kvs =>
      cases h : jGet kvs "senses" with
      | none => simp [freedict_entry_has_content, h]
      | some j =>
          cases j with
          | arr senses =>
              by_cases hemp : senses.isEmpty = true
              · simp [freedict_entry_has_content, h, hemp, List.isEmpty_iff.mp hemp]
              · simp only [freedict_entry_has_content, h, if_neg hemp, List.any_eq_true,
                  J.obj.injEq, Option.some.injEq, J.arr.injEq]
                constructor
                · rintro ⟨sense, hs, hcs⟩
                  exact ⟨kvs, senses, rfl, h,
                    by simpa [List.isEmpty_iff] using hemp, sense, hs, hcs⟩
                · rintro ⟨kvs2, senses2, heq, hget, hne2, sense, hs, hcs⟩
                  subst heq
                  rw [h] at hget
                  have hss : senses2 = senses := by simpa using hget.symm
                  subst hss
                  exact ⟨sense, hs, hcs⟩
          | null => simp [freedict_entry_has_content, h]
          | bool b => simp [freedict_entry_has_content, h]
          | num n => simp [freedict_entry_has_content, h]
          | str s => simp [freedict_entry_has_content, h]
          | obj kvs2 => simp [freedict_entry_has_content, h]
  | null => simp [freedict_entry_has_content]
  | bool b => simp [freedict_entry_has_content]
  | num n => simp [freedict_entry_has_content]
  | str s => simp [freedict_entry_has_content]
  | arr xs => simp [freedict_entry_has_content]

theorem iterGlossValues_map_str (gl : List String) :
    iterGlossValues (some (J.arr (gl.map J.str))) = gl := by
  simp only [iterGlossValues]
  induction gl with
  | nil => rfl
  | cons g gs ih => simp only [List.map_cons, List.filterMap_cons, ih]

/-- C8 counterexample: an entry whose single sense has a non-whitespace
string only under `raw_glosses` satisfies the claimed predicate (and the
base implementation), but the FreeDict override used on the StarDict
emission path returns False because it consults only `glosses`. -/
theorem entry_has_content_counterexample :
    freedict_entry_has_content
        (J.obj [("senses", J.arr [J.obj [("raw_glosses", J.arr [J.str "hi"])]])]) = false ∧
    entry_has_content
        (J.obj [("senses", J.arr [J.obj [("raw_glosses", J.arr [J.str "hi"])]])]) = true := by
  constructor
  · decide
  · decide

/-- C8 (amended): the base `entry_has_content` returns True exactly when the
entry is a dict with a non-empty senses list in which some dict-shaped sense
has a non-whitespace string under `glosses` or `raw_glosses`; the FreeDict
override used for StarDict emission consults only `glosses`; a converted
StarDict entry is emitted iff the override holds, and on converter output
(where `raw_glosses` always equals `glosses`) the two predicates agree. -/
theorem entry_has_content_amended :
    (∀ entry, entry_has_content entry = true ↔
        ∃ kvs senses, entry = J.obj kvs ∧
          jGet kvs "senses" = some (J.arr senses) ∧ senses ≠ [] ∧
          ∃ sense ∈ senses, ∃ skvs, sense = J.obj skvs ∧ ∃ v,
            (v ∈ iterGlossValues (jGet skvs "glosses") ∨
             v ∈ iterGlossValues (jGet skvs "raw_glosses")) ∧
            (pyStrip v).data.isEmpty = false) ∧
    (∀ entry, freedict_entry_has_content entry = true ↔
        ∃ kvs senses, entry = J.obj kvs ∧
          jGet kvs "senses" = some (J.arr senses) ∧ senses ≠ [] ∧
          ∃ sense ∈ senses, ∃ skvs, sense = J.obj skvs ∧ ∃ v,
            v ∈ iterGlossValues (jGet skvs "glosses") ∧
            (pyStrip v).data.isEmpty = false) ∧
    (∀ defs e, e ∈ stardictEntries defs ↔
        ∃ wd ∈ defs, e = convertToKaikkiFormat wd.1 wd.2 ∧
          freedict_entry_has_content e = true) ∧
    (∀ w glosses, freedict_entry_has_content (convertToKaikkiFormat w glosses) =
        entry_has_content (convertToKaikkiFormat w glosses)) := by
  refine ⟨?_, ?_, ?_, ?_⟩
  · intro entry
    rw [entry_has_content_iff_sense entry]
    constructor
    · rintro ⟨kvs, senses, heq, hget, hne, sense, hs, hcs⟩
      obtain ⟨skvs, hsk, v, hv, hp⟩ := (senseHasContentBase_iff sense).mp hcs
      exact ⟨kvs, senses, heq, hget, hne, sense, hs, skvs, hsk, v, hv, hp⟩
    · rintro ⟨kvs, senses, heq, hget, hne, sense, hs, skvs, hsk, v, hv, hp⟩
      exact ⟨kvs, senses, heq, hget, hne, sense, hs,
        (senseHasContentBase_iff sense).mpr ⟨skvs, hsk, v, hv, hp⟩⟩
  · intro entry
    rw [freedict_entry_has_content_iff_sense entry]
    have hsense : ∀ sense, senseHasContentFreedict sense = true ↔
        ∃ skvs, sense = J.obj skvs ∧ ∃ v,
          v ∈ iterGlossValues (jGet skvs "glosses") ∧ (pyStrip v).data.isEmpty = false := by
      intro sense
      rw [senseHasContentFreedict_eq]
      cases sense with
      | obj skvs =>
          simp only [List.any_eq_true, Bool.not_eq_true', J.obj.injEq]
          constructor
          · rintro ⟨v, hv, hp⟩
            exact ⟨skvs, rfl, v, hv, hp⟩
          · rintro ⟨skvs2, heq, v, hv, hp⟩
            subst heq
            exact ⟨v, hv, hp⟩
      | null => simp
      | bool b => simp
      | num n => simp
      | str s => simp
      | arr xs => simp
    constructor
    · rintro ⟨kvs, senses, heq, hget, hne, sense, hs, hcs⟩
      obtain ⟨skvs, hsk, v, hv, hp⟩ := (hsense sense).mp hcs
      exact ⟨kvs, senses, heq, hget, hne, sense, hs, skvs, hsk, v, hv, hp⟩
    · rintro ⟨kvs, senses, heq, hget, hne, sense, hs, skvs, hsk, v, hv, hp⟩
      exact ⟨kvs, senses, heq, hget, hne, sense, hs,
        (hsense sense).mpr ⟨skvs, hsk, v, hv, hp⟩⟩
  · intro defs e
    unfold stardictEntries
    simp only [List.mem_filter, List.mem_map]
    constructor
    · rintro ⟨⟨wd, hwd, heq⟩, hc⟩
      exact ⟨wd, hwd, heq.symm, hc⟩
    · rintro ⟨wd, hwd, heq, hc⟩
      exact ⟨⟨wd, hwd, heq.symm⟩, hc⟩
  · intro w glosses
    have hget : jGet [("word", J.str w), ("pos", J.str "noun"),
        ("senses", J.arr [J.obj [("glosses", J.arr (glosses.map J.str)),
                                 ("raw_glosses", J.arr (glosses.map J.str))]])]
        "senses" =
        some (J.arr [J.obj [("glosses", J.arr (glosses.map J.str)),
                            ("raw_glosses", J.arr (glosses.map J.str))]]) := by
      simp [jGet, dictLookup]
    have hg1 : jGet [("glosses", J.arr (glosses.map J.str)),
        ("raw_glosses", J.arr (glosses.map J.str))] "glosses" =
        some (J.arr (glosses.map J.str)) := by
      simp [jGet, dictLookup]
    have hg2 : jGet [("glosses", J.arr (glosses.map J.str)),
        ("raw_glosses", J.arr (glosses.map J.str))] "raw_glosses" =
        some (J.arr (glosses.map J.str)) := by
      simp [jGet, dictLookup]
    show freedict_entry_has_content (J.obj _) = entry_has_content (J.obj _)
    simp only [freedict_entry_has_content, entry_has_content, hget]
    simp only [List.isEmpty_cons, Bool.false_eq_true, if_false, List.any_cons,
      List.any_nil, Bool.or_false]
    rw [senseHasContentFreedict_eq]
    simp only [senseHasContentBase, hg1, hg2, iterGlossValues_map_str, Bool.or_self]

/-! ## Download operations (kaikki.py `KaikkiClient.ensure_raw_dump` and
`ensure_language_dataset`, builder.py `Builder._ensure_raw_dump` and
`_ensure_language_dataset`, source_freedict.py archive download in
`_download_dictionary`).  All of these open the FINAL target path and stream
chunks into it directly; none writes to a `.tmp` path or renames. -/

/-- One event of iterating `response.iter_content(...)`: either the next
chunk of bytes arrives, or the transfer or the local write fails. -/
inductive StreamEvent where
  | chunk (bytes : List Nat)
  | ioError
deriving DecidableEq

/-- The download loop body: the file at the final path accumulates every
non-empty chunk seen before the first failure (the `if chunk` guard skips
falsy chunks; an empty chunk writes nothing anyway). -/
def writeChunks : List StreamEvent → List Nat → List Nat × Bool
  | [], acc => (acc, true)
  | .chunk b :: rest, acc =>
      writeChunks rest (acc ++ (if b.isEmpty then [] else b))
  | .ioError :: _, acc => (acc, false)

/-- The bytes of the chunks that precede the first failure. -/
def streamedBytes : List StreamEvent → List Nat
  | [] => []
  | .chunk b :: rest => b ++ streamedBytes rest
  | .ioError :: _ => []

/-- True when the whole stream is consumed without a failure. -/
def streamOk : List StreamEvent → Bool
  | [] => true
  | .chunk _ :: rest => streamOk rest
  | .ioError :: _ => false

/-- Contents of the download target path (`none` models a missing file). -/
structure DlState where
  target : Option (List Nat)
deriving DecidableEq

/-- KaikkiClient.ensure_raw_dump (and structurally every other download in
the repository): return the cached file if the target exists; fail before
touching the file when the GET or `raise_for_status` fails (`preFail`);
otherwise open the final target for writing and stream chunks into it, so a
mid-stream failure leaves the partially written file at the final path and
raises a download error. -/
def ensure_raw_dump (preFail : Bool) (events : List StreamEvent) (st : DlState) :
    Except Unit (List Nat) × DlState :=
  match st.target with
  | some content => (.ok content, st)
  | none =>
      if preFail then (.error (), st)
      else
        let result := writeChunks events []
        ((if result.2 then .ok result.1 else .error ()), ⟨some result.1⟩)

theorem writeChunks_eq (events : List StreamEvent) (acc : List Nat) :
    writeChunks events acc = (acc ++ streamedBytes events, streamOk events) := by
  induction events generalizing acc with
  | nil => simp [writeChunks, streamedBytes, streamOk]
  | cons ev rest ih =>
      cases ev with
      | chunk b =>
          by_cases hb : b.isEmpty = true
          · have hbn : b = [] := List.isEmpty_iff.mp hb
            simp [writeChunks, streamedBytes, streamOk, hb, hbn, ih]
          · simp [writeChunks, streamedBytes, streamOk, hb, ih, List.append_assoc]
      | ioError => simp [writeChunks, streamedBytes, streamOk]

/-- C1 counterexample: with no pre-existing file, a stream that yields one
chunk and then fails leaves the partial file at the final destination path
while the operation raises a download error, contradicting the claim that
downloads go to a temporary `.tmp` path and that a partial file is never left
at the final path. -/
theorem download_partial_file_counterexample :
    ensure_raw_dump false [.chunk [1], .ioError] ⟨none⟩ =
      (.error (), ⟨some [1]⟩) ∧ some [1] ≠ (none : Option (List Nat)) := by
  exact ⟨rfl, by decide⟩

/-- C1 (amended): downloads stream directly to the final destination path.
If the target already exists it is returned unchanged; a transport failure
before streaming begins leaves the file system unchanged; once streaming has
started, the final path ends up holding exactly the bytes of the chunks that
preceded the first failure, and the operation reports an error iff the
stream failed, in which case that partial file remains at the final path. -/
theorem download_direct_write_amended :
    (∀ preFail events content,
        ensure_raw_dump preFail events ⟨some content⟩ =
          (.ok content, ⟨some content⟩)) ∧
    (∀ events, ensure_raw_dump true events ⟨none⟩ = (.error (), ⟨none⟩)) ∧
    (∀ events, (ensure_raw_dump false events ⟨none⟩).2 =
        ⟨some (streamedBytes events)⟩) ∧
    (∀ events, (ensure_raw_dump false events ⟨none⟩).1 =
        if streamOk events then .ok (streamedBytes events) else .error ()) := by
  refine ⟨fun preFail events content => rfl, fun events => rfl, ?_, ?_⟩
  · intro events
    simp [ensure_raw_dump, writeChunks_eq]
  · intro events
    simp only [ensure_raw_dump, writeChunks_eq, Bool.false_eq_true, if_false,
      List.nil_append]

/-! ## Language filtering (kaikki.py `KaikkiClient.ensure_filtered_language`,
builder.py `Builder._ensure_filtered_language`) -/

/-- Relevant fields of one non-blank, JSON-valid line of the raw dump: the
string values of its `language` and `lang` keys when present, and the line
text that is copied verbatim into the filtered file. -/
structure RawEntry where
  language : Option String
  lang : Option String
  text : String
deriving DecidableEq

/-- Python `entry.get("language") or entry.get("lang")`: a missing key gives
`None` and the empty string is falsy, either falls through to `lang`. -/
def pyOrStr (a b : Option String) : Option String :=
  match a with
  | some s => if s.data.isEmpty then b else some s
  | none => b

/-- Retention test of the filter loop: `entry_language == language`. -/
def keepLine (language : String) (e : RawEntry) : Bool :=
  match pyOrStr e.language e.lang with
  | some s => s = language
  | none => false

/-- Parsed sidecar `<slug>.meta.json`; unparsable JSON is read as `{}`. -/
inductive MetaFile where
  | invalid
  | valid (language : String) (count : Int) (source_mtime : Int)
deriving DecidableEq

/-- The cache state seen by one filtering call: the raw dump (its parsed
lines and integer mtime), the filtered file, its sidecar, and the lines the
per-language dataset of `ensure_language_dataset` would provide. -/
structure FilterState where
  rawMtime : Int
  rawLines : List RawEntry
  filtered : Option (List RawEntry)
  meta : Option MetaFile
  langDataset : List RawEntry
deriving DecidableEq

/-- ASCII `[A-Za-z0-9]` test of the `_slugify` regex. -/
def isAsciiAlnum (c : Char) : Bool :=
  (0x41 ≤ c.toNat ∧ c.toNat ≤ 0x5A) ∨ (0x61 ≤ c.toNat ∧ c.toNat ≤ 0x7A) ∨
  (0x30 ≤ c.toNat ∧ c.toNat ≤ 0x39)

/-- Collapse each maximal run of underscores to a single one, mirroring the
`+` of the regex `[^A-Za-z0-9]+`. -/
def collapseUnderscores : List Char → List Char
  | [] => []
  | [c] => [c]
  | c :: d :: rest =>
      if c = '_' ∧ d = '_' then collapseUnderscores (d :: rest)
      else c :: collapseUnderscores (d :: rest)

/-- `_slugify`: strip, replace each run outside `[A-Za-z0-9]` with `_`, and
fall back to "language" when nothing remains. -/
def slugify (value : String) : String :=
  let mapped := (pyStrip value).data.map (fun c => if isAsciiAlnum c then c else '_')
  let collapsed := collapseUnderscores mapped
  if collapsed.isEmpty then "language" else ⟨collapsed⟩

/-- The filtered cache path for a language (`filtered/<slug>.jsonl`). -/
def filteredPath (language : String) : String :=
  "filtered/" ++ slugify language ++ ".jsonl"

/-- Result of a successful filtering call: the returned path and count, the
file-system state afterwards, and whether the raw dump was re-filtered
(false means the fresh-sidecar early return was taken). -/
structure FilterOutcome where
  path : String
  count : Int
  state : FilterState
  didFilter : Bool
deriving DecidableEq

/-- Shared freshness check (kaikki.py lines 144-150, builder.py 741-747):
filtered file and sidecar exist, the sidecar parses, its `source_mtime`
equals the raw dump's current integer mtime and its `count` is truthy; the
recorded count is then returned without re-filtering. -/
def sidecarFreshCount (st : FilterState) : Option Int :=
  match st.filtered, st.meta with
  | some _, some (.valid _ count source_mtime) =>
      if source_mtime = st.rawMtime ∧ count ≠ 0 then some count else none
  | _, _ => none

/-- Net effect of writing the filtered file (through the `.tmp` rename in
kaikki.py, directly in builder.py) and its sidecar
`{language, count, source_mtime}`. -/
def writeFiltered (language : String) (count : Int) (content : List RawEntry)
    (st : FilterState) : FilterState :=
  { st with filtered := some content,
            meta := some (.valid language count st.rawMtime) }

/-- KaikkiClient.ensure_filtered_language: fresh sidecar short-circuits;
otherwise the raw dump is filtered; on zero matches the per-language dataset
is copied unfiltered; only if that is also empty a KaikkiDownloadError is
raised.  (The language has already been canonicalised; JSON parse failures
of raw lines, which raise KaikkiParseError, are outside the modelled state.) -/
def ensure_filtered_language (language : String) (st : FilterState) :
    Except Unit FilterOutcome :=
  match sidecarFreshCount st with
  | some count => .ok ⟨filteredPath language, count, st, false⟩
  | none =>
      let kept := st.rawLines.filter (keepLine language)
      if kept.length ≠ 0 then
        .ok ⟨filteredPath language, (kept.length : Int),
             writeFiltered language (kept.length : Int) kept st, true⟩
      else
        if st.langDataset.length ≠ 0 then
          .ok ⟨filteredPath language, (st.langDataset.length : Int),
               writeFiltered language (st.langDataset.length : Int) st.langDataset st,
               true⟩
        else .error ()

/-- Builder._ensure_filtered_language: identical freshness check and
retention rule, but zero matches raise KaikkiDownloadError immediately,
without the retry through the per-language dataset. -/
def builder_ensure_filtered_language (language : String) (st : FilterState) :
    Except Unit FilterOutcome :=
  match sidecarFreshCount st with
  | some count => .ok ⟨filteredPath language, count, st, false⟩
  | none =>
      let kept := st.rawLines.filter (keepLine language)
      if kept.length ≠ 0 then
        .ok ⟨filteredPath language, (kept.length : Int),
             writeFiltered language (kept.length : Int) kept st, true⟩
      else .error ()

theorem sidecarFreshCount_eq_some (st : FilterState) (c : Int) :
    sidecarFreshCount st = some c ↔
      st.filtered.isSome = true ∧
      ∃ lg m, st.meta = some (.valid lg c m) ∧ m = st.rawMtime ∧ c ≠ 0 := by
  obtain ⟨mt, lines, fo, mo, ld⟩ := st
  cases fo with
  | none => simp [sidecarFreshCount]
  | some fcontent =>
      cases mo with
      | none => simp [sidecarFreshCount]
      | some mf =>
          cases mf with
          | invalid => simp [sidecarFreshCount]
          | valid lg cnt sm =>
              simp only [sidecarFreshCount]
              by_cases hcond : sm = mt ∧ cnt ≠ 0
              · rw [if_pos hcond]
                simp only [Option.some.injEq, Option.isSome_some, true_and,
                  MetaFile.valid.injEq]
                constructor
                · rintro rfl
                  exact ⟨lg, sm, ⟨rfl, rfl, rfl⟩, hcond.1, hcond.2⟩
                · rintro ⟨lg2, m2, ⟨h1, h2, h3⟩, hm, hc⟩
                  exact h2
              · rw [if_neg hcond]
                simp only [Option.isSome_some, true_and, Option.some.injEq,
                  MetaFile.valid.injEq]
                constructor
                · intro h
                  cases h
                · rintro ⟨lg2, m2, ⟨h1, h2, h3⟩, hm, hc⟩
                  subst h2
                  subst h3
                  subst hm
                  exact absurd ⟨rfl, hc⟩ hcond

theorem sidecarFreshCount_writeFiltered (language : String) (n : Int)
    (content : List RawEntry) (st : FilterState) (hn : n ≠ 0) :
    sidecarFreshCount (writeFiltered language n content st) = some n := by
  simp [sidecarFreshCount, writeFiltered, hn]

/-- Conclusion of the idempotence claim for a successful first call: the
second call returns the same path and count without re-filtering and leaves
the state unchanged; the returned count is positive; and the first call
skipped re-filtering exactly when the sidecar was fresh with a positive
recorded count. -/
def filterIdempotentAfter (st : FilterState) (out : FilterOutcome)
    (language : String) : Prop :=
  ensure_filtered_language language out.state =
      .ok ⟨out.path, out.count, out.state, false⟩ ∧
  0 < out.count ∧
  (out.didFilter = false ↔
    (st.filtered.isSome = true ∧
     ∃ lg c m, st.meta = some (.valid lg c m) ∧ m = st.rawMtime ∧ 0 < c))

/-- Second-call behaviour after any successful call (helper for the
idempotence claim). -/
theorem filter_second_call_of_ok (language : String) (st : FilterState)
    (out : FilterOutcome)
    (hmeta : ∀ lg c m, st.meta = some (.valid lg c m) → 0 ≤ c)
    (h : ensure_filtered_language language st = .ok out) :
    filterIdempotentAfter st out language := by
  cases hfc : sidecarFreshCount st with
  | some count =>
      have hout : FilterOutcome.mk (filteredPath language) count st false = out := by
        have h2 := h
        simp only [ensure_filtered_language, hfc, Except.ok.injEq] at h2
        exact h2
      subst hout
      obtain ⟨hfsome, lg, m, hmetaEq, hmm, hcne⟩ :=
        (sidecarFreshCount_eq_some st count).mp hfc
      have hpos : 0 < count := by
        have := hmeta lg count m hmetaEq
        omega
      refine ⟨?_, hpos, ?_⟩
      · simp only [ensure_filtered_language, hfc]
      · simp only [true_iff]
        exact ⟨hfsome, lg, count, m, hmetaEq, hmm, hpos⟩
  | none =>
      have hnotfresh : ¬ (st.filtered.isSome = true ∧
          ∃ lg c m, st.meta = some (.valid lg c m) ∧ m = st.rawMtime ∧ 0 < c) := by
        rintro ⟨hfs, lg, c, m, hmeq, hmm, hcpos⟩
        have : sidecarFreshCount st = some c :=
          (sidecarFreshCount_eq_some st c).mpr ⟨hfs, lg, m, hmeq, hmm, by omega⟩
        rw [hfc] at this
        cases this
      by_cases hk : (st.rawLines.filter (keepLine language)).length ≠ 0
      · have hout : FilterOutcome.mk (filteredPath language)
            ((st.rawLines.filter (keepLine language)).length : Int)
            (writeFiltered language
              ((st.rawLines.filter (keepLine language)).length : Int)
              (st.rawLines.filter (keepLine language)) st) true = out := by
          have h2 := h
          simp only [ensure_filtered_language, hfc] at h2
          rw [if_pos hk] at h2
          simpa only [Except.ok.injEq] using h2
        subst hout
        have hn : ((st.rawLines.filter (keepLine language)).length : Int) ≠ 0 := by
          exact_mod_cast hk
        refine ⟨?_, Int.natCast_pos.mpr (Nat.pos_of_ne_zero hk), ?_⟩
        · simp only [ensure_filtered_language,
            sidecarFreshCount_writeFiltered language _ _ st hn]
        · simp only [Bool.true_eq_false, false_iff]
          exact hnotfresh
      · by_cases hl : st.langDataset.length ≠ 0
        · have hout : FilterOutcome.mk (filteredPath language)
              (st.langDataset.length : Int)
              (writeFiltered language (st.langDataset.length : Int)
                st.langDataset st) true = out := by
            have h2 := h
            simp only [ensure_filtered_language, hfc] at h2
            rw [if_neg hk, if_pos hl] at h2
            simpa only [Except.ok.injEq] using h2
          subst hout
          have hn : (st.langDataset.length : Int) ≠ 0 := by exact_mod_cast hl
          refine ⟨?_, Int.natCast_pos.mpr (Nat.pos_of_ne_zero hl), ?_⟩
          · simp only [ensure_filtered_language,
              sidecarFreshCount_writeFiltered language _ _ st hn]
          · simp only [Bool.true_eq_false, false_iff]
            exact hnotfresh
        · exfalso
          simp only [ensure_filtered_language, hfc] at h
          rw [if_neg hk, if_neg hl] at h
          exact Except.noConfusion h

/-- C2: for a language whose raw subset is non-empty (and sidecar counts
non-negative, which every sidecar written by the code satisfies), the call
succeeds and a second call is idempotent: same path, same count, unchanged
state, no re-filtering; and the early return is taken exactly when the
sidecar's `source_mtime` equals the raw dump's current integer mtime and its
recorded count is positive. -/
theorem ensure_filtered_language_idempotent (language : String) (st : FilterState)
    (hmeta : ∀ lg c m, st.meta = some (.valid lg c m) → 0 ≤ c)
    (hne : st.rawLines.filter (keepLine language) ≠ []) :
    ∃ out, ensure_filtered_language language st = .ok out ∧
      filterIdempotentAfter st out language := by
  have hsucc : ∃ out, ensure_filtered_language language st = .ok out := by
    cases hfc : sidecarFreshCount st with
    | some c =>
        refine ⟨⟨filteredPath language, c, st, false⟩, ?_⟩
        simp only [ensure_filtered_language, hfc]
    | none =>
        have hk : (st.rawLines.filter (keepLine language)).length ≠ 0 := by
          simpa [List.length_eq_zero] using hne
        refine ⟨⟨filteredPath language,
          ((st.rawLines.filter (keepLine language)).length : Int),
          writeFiltered language
            ((st.rawLines.filter (keepLine language)).length : Int)
            (st.rawLines.filter (keepLine language)) st, true⟩, ?_⟩
        simp only [ensure_filtered_language, hfc]
        rw [if_pos hk]
  obtain ⟨out, hout⟩ := hsucc
  exact ⟨out, hout, filter_second_call_of_ok language st out hmeta hout⟩

/-- C2 witness: an initially empty cache with one Serbian raw line; the first
call filters and the conclusions of the idempotence theorem hold. -/
theorem ensure_filtered_language_idempotent_witness :
    ∃ out, ensure_filtered_language "Serbian"
        ⟨5, [⟨some "Serbian", none, "line1"⟩], none, none, []⟩ = .ok out ∧
      filterIdempotentAfter
        ⟨5, [⟨some "Serbian", none, "line1"⟩], none, none, []⟩ out "Serbian" :=
  ensure_filtered_language_idempotent "Serbian"
    ⟨5, [⟨some "Serbian", none, "line1"⟩], none, none, []⟩
    (by intro lg c m hm; cases hm)
    (by decide)

/-- C4 counterexample: the raw dump holds only an English line and the
per-language dataset holds one line.  The claim says the filtering operation
retries by copying the per-language dataset and fails only if that copy is
also empty, but `Builder._ensure_filtered_language` (cited by the claim)
raises a KaikkiDownloadError immediately, while
`KaikkiClient.ensure_filtered_language` succeeds with one copied entry. -/
theorem builder_filter_no_retry_counterexample :
    builder_ensure_filtered_language "Serbian"
      ⟨7, [⟨some "English", none, "e"⟩], none, none,
       [⟨some "Serbian", none, "s"⟩]⟩ = .error () ∧
    [(⟨some "Serbian", none, "s"⟩ : RawEntry)].length = 1 ∧
    ensure_filtered_language "Serbian"
      ⟨7, [⟨some "English", none, "e"⟩], none, none,
       [⟨some "Serbian", none, "s"⟩]⟩ =
      .ok ⟨filteredPath "Serbian", 1,
           writeFiltered "Serbian" 1 [⟨some "Serbian", none, "s"⟩]
             ⟨7, [⟨some "English", none, "e"⟩], none, none,
              [⟨some "Serbian", none, "s"⟩]⟩, true⟩ := by
  exact ⟨rfl, rfl, rfl⟩

/-- C4 (amended): a line is retained iff `entry.get("language") or
entry.get("lang")` equals the requested language; on zero matches
`KaikkiClient.ensure_filtered_language` copies the per-language dataset
unfiltered and raises a KaikkiDownloadError only when that copy is also
empty, whereas `Builder._ensure_filtered_language` raises the error
immediately without the retry. -/
theorem filter_retention_and_retry_amended :
    (∀ language (e : RawEntry), keepLine language e = true ↔
        pyOrStr e.language e.lang = some language) ∧
    (∀ language st, sidecarFreshCount st = none →
      ((st.rawLines.filter (keepLine language)).length ≠ 0 →
        ensure_filtered_language language st =
          .ok ⟨filteredPath language,
               ((st.rawLines.filter (keepLine language)).length : Int),
               writeFiltered language
                 ((st.rawLines.filter (keepLine language)).length : Int)
                 (st.rawLines.filter (keepLine language)) st, true⟩ ∧
        builder_ensure_filtered_language language st =
          ensure_filtered_language language st) ∧
      ((st.rawLines.filter (keepLine language)).length = 0 →
        (st.langDataset.length ≠ 0 →
          ensure_filtered_language language st =
            .ok ⟨filteredPath language, (st.langDataset.length : Int),
                 writeFiltered language (st.langDataset.length : Int)
                   st.langDataset st, true⟩) ∧
        (st.langDataset.length = 0 →
          ensure_filtered_language language st = .error ()) ∧
        builder_ensure_filtered_language language st = .error ())) := by
  constructor
  · intro language e
    cases hp : pyOrStr e.language e.lang with
    | none => simp [keepLine, hp]
    | some s => simp [keepLine, hp]
  · intro language st hfc
    constructor
    · intro hk
      constructor
      · simp only [ensure_filtered_language, hfc]
        rw [if_pos hk]
      · simp only [ensure_filtered_language, builder_ensure_filtered_language, hfc]
        rw [if_pos hk, if_pos hk]
    · intro hk
      have hknot : ¬ (st.rawLines.filter (keepLine language)).length ≠ 0 := by
        simpa using hk
      refine ⟨?_, ?_, ?_⟩
      · intro hl
        simp only [ensure_filtered_language, hfc]
        rw [if_neg hknot, if_pos hl]
      · intro hl
        have hlnot : ¬ st.langDataset.length ≠ 0 := by simpa using hl
        simp only [ensure_filtered_language, hfc]
        rw [if_neg hknot, if_neg hlnot]
      · simp only [builder_ensure_filtered_language, hfc]
        rw [if_neg hknot]

/-! ## StarDict binary parsing (source_freedict.py
`FreeDictSource._read_index` and `_read_definitions`) -/

/-- Big-endian unsigned word assembled from a byte slice, as
`struct.unpack` reads it (file bytes are below 256; the modulus keeps the
definition total on arbitrary naturals). -/
def be32 (bs : List Nat) : Nat :=
  bs.foldl (fun acc b => acc * 256 + b % 256) 0

/-- FreeDictSource._read_index main loop, recursing on the scan position.
`(data.drop pos).findIdx?` of a zero byte models `data.find(b"\x00", pos)`;
a record is the word's raw bytes (UTF-8 decoding with ignored errors is not
modelled) plus the two big-endian integers following the NUL; the loop stops
when no NUL is found or fewer than 8 bytes remain after it. -/
def readIndexAux (data : List Nat) (pos : Nat) : List (List Nat × Nat × Nat) :=
  if _h : pos < data.length then
    match (data.drop pos).findIdx? (fun b => b = 0) with
    | none => []
    | some k =>
        if pos + k + 9 > data.length then []
        else
          ((data.drop pos).take k,
           be32 ((data.drop (pos + k + 1)).take 4),
           be32 ((data.drop (pos + k + 5)).take 4)) ::
          readIndexAux data (pos + k + 9)
  else []
termination_by data.length - pos
decreasing_by omega

/-- FreeDictSource._read_index on the whole index byte string. -/
def read_index (data : List Nat) : List (List Nat × Nat × Nat) :=
  readIndexAux data 0

/-- One iteration of the `_read_definitions` loop: records whose slice would
run past the end of the blob are skipped silently; otherwise the in-bounds
slice is stored under the word (last record wins, as for a Python dict; the
string decoding and `strip` of the slice are not modelled). -/
def readDefStep (dictData : List Nat) (defs : List (List Nat × List Nat))
    (r : List Nat × Nat × Nat) : List (List Nat × List Nat) :=
  if r.2.1 + r.2.2 > dictData.length then defs
  else dictInsert defs r.1 ((dictData.drop r.2.1).take r.2.2)

/-- FreeDictSource._read_definitions. -/
def read_definitions (dictData : List Nat) (index : List (List Nat × Nat × Nat)) :
    List (List Nat × List Nat) :=
  index.foldl (readDefStep dictData) []

theorem readIndexAux_stop_noNul (data : List Nat) (pos : Nat)
    (hf : (data.drop pos).findIdx? (fun b => b = 0) = none) :
    readIndexAux data pos = [] := by
  rw [readIndexAux]
  by_cases h : pos < data.length
  · rw [dif_pos h]
    simp only [hf]
  · rw [dif_neg h]

theorem readIndexAux_stop_short (data : List Nat) (pos k : Nat)
    (hf : (data.drop pos).findIdx? (fun b => b = 0) = some k)
    (hg : pos + k + 9 > data.length) :
    readIndexAux data pos = [] := by
  rw [readIndexAux]
  by_cases h : pos < data.length
  · rw [dif_pos h]
    simp only [hf]
    rw [if_pos hg]
  · rw [dif_neg h]

theorem readIndexAux_cons (data : List Nat) (pos k : Nat) (h : pos < data.length)
    (hf : (data.drop pos).findIdx? (fun b => b = 0) = some k)
    (hg : ¬ pos + k + 9 > data.length) :
    readIndexAux data pos =
      ((data.drop pos).take k,
       be32 ((data.drop (pos + k + 1)).take 4),
       be32 ((data.drop (pos + k + 5)).take 4)) ::
      readIndexAux data (pos + k + 9) := by
  rw [readIndexAux]
  rw [dif_pos h]
  simp only [hf]
  rw [if_neg hg]

theorem readIndexAux_inBounds (data : List Nat) (p0 : Nat) :
    ∀ r ∈ readIndexAux data p0, ∃ p k,
      p0 ≤ p ∧ (data.drop p).findIdx? (fun b => b = 0) = some k ∧
      p + k + 9 ≤ data.length ∧
      r = ((data.drop p).take k,
           be32 ((data.drop (p + k + 1)).take 4),
           be32 ((data.drop (p + k + 5)).take 4)) := by
  refine readIndexAux.induct data
    (fun x => ∀ r ∈ readIndexAux data x, ∃ p k,
      x ≤ p ∧ (data.drop p).findIdx? (fun b => b = 0) = some k ∧
      p + k + 9 ≤ data.length ∧
      r = ((data.drop p).take k,
           be32 ((data.drop (p + k + 1)).take 4),
           be32 ((data.drop (p + k + 5)).take 4)))
    ?_ ?_ ?_ ?_ p0
  · intro x hx hf r hr
    rw [readIndexAux_stop_noNul data x hf] at hr
    cases hr
  · intro x hx k hf hg r hr
    rw [readIndexAux_stop_short data x k hf hg] at hr
    cases hr
  · intro x hx k hf hg ih r hr
    rw [readIndexAux_cons data x k hx hf hg] at hr
    rcases List.mem_cons.mp hr with hr | hr
    · exact ⟨x, k, Nat.le_refl x, hf, by omega, hr⟩
    · obtain ⟨p, k2, hple, hfind, hb, hrec⟩ := ih r hr
      exact ⟨p, k2, by omega, hfind, hb, hrec⟩
  · intro x hx r hr
    rw [readIndexAux, dif_neg hx] at hr
    cases hr

theorem read_definitions_fold_mem (blob : List Nat)
    (idx : List (List Nat × Nat × Nat)) (acc : List (List Nat × List Nat))
    (p : List Nat × List Nat) (hp : p ∈ idx.foldl (readDefStep blob) acc) :
    p ∈ acc ∨ ∃ off sz, (p.1, off, sz) ∈ idx ∧ off + sz ≤ blob.length ∧
      p.2 = (blob.drop off).take sz := by
  induction idx generalizing acc with
  | nil => exact Or.inl hp
  | cons r rest ih =>
      obtain ⟨w, off0, sz0⟩ := r
      simp only [List.foldl_cons] at hp
      rcases ih _ hp with hacc | ⟨off, sz, hmem, hb, hv⟩
      · by_cases hover : off0 + sz0 > blob.length
        · rw [readDefStep, if_pos hover] at hacc
          exact Or.inl hacc
        · rw [readDefStep, if_neg hover] at hacc
          rcases mem_dictInsert _ _ _ _ hacc with hpv | hpv
          · subst hpv
            exact Or.inr ⟨off0, sz0, List.mem_cons_self _ _, by omega, rfl⟩
          · exact Or.inl hpv
      · exact Or.inr ⟨off, sz, List.mem_cons_of_mem _ hmem, hb, hv⟩

/-- C10: StarDict parsing is total and in-bounds.  Every index record comes
from a scan position whose word bytes, NUL byte and 8 trailing bytes all lie
inside the index data; the scan stops when no NUL is found or fewer than 8
bytes remain after the word; and `_read_definitions` stores only slices with
`offset + size` within the dictionary blob, silently skipping any index
record whose slice would run past the end. -/
theorem stardict_parse_in_bounds :
    (∀ data : List Nat, ∀ r ∈ read_index data, ∃ p k,
        (data.drop p).findIdx? (fun b => b = 0) = some k ∧
        p + k + 9 ≤ data.length ∧
        r = ((data.drop p).take k,
             be32 ((data.drop (p + k + 1)).take 4),
             be32 ((data.drop (p + k + 5)).take 4))) ∧
    (∀ data pos, (data.drop pos).findIdx? (fun b => b = 0) = none →
        readIndexAux data pos = []) ∧
    (∀ data pos k, (data.drop pos).findIdx? (fun b => b = 0) = some k →
        pos + k + 9 > data.length → readIndexAux data pos = []) ∧
    (∀ blob idx, ∀ p ∈ read_definitions blob idx, ∃ off sz,
        (p.1, off, sz) ∈ idx ∧ off + sz ≤ blob.length ∧
        p.2 = (blob.drop off).take sz) ∧
    (∀ blob w off sz rest, off + sz > blob.length →
        read_definitions blob ((w, off, sz) :: rest) =
          read_definitions blob rest) := by
  refine ⟨?_, readIndexAux_stop_noNul, readIndexAux_stop_short, ?_, ?_⟩
  · intro data r hr
    obtain ⟨p, k, _, hfind, hb, hrec⟩ := readIndexAux_inBounds data 0 r hr
    exact ⟨p, k, hfind, hb, hrec⟩
  · intro blob idx p hp
    rcases read_definitions_fold_mem blob idx [] p hp with hacc | hok
    · cases hacc
    · exact hok
  · intro blob w off sz rest hover
    simp only [read_definitions, List.foldl_cons, readDefStep, if_pos hover]

end Dictforge
